import Mathlib

/-!
Verification of the message-chunking, normalization, confirmation and
dispatch logic of the translation bot (bot.py, UTILS/helpers.py).

Python strings are modelled as `List Char`.  The whitespace class models
the ASCII part of Python's `\s` / `str.split()` / `str.strip()` whitespace
(space, tab, newline, carriage return, vertical tab, form feed), which is
the only whitespace the program's texts exercise.
-/

abbrev Str := List Char

/-- Model of the whitespace class used by `re` `\s`, `str.split()` and `str.strip()`. -/
def isWs (c : Char) : Bool :=
  c == ' ' || c == '\t' || c == '\n' || c == '\r' || c == Char.ofNat 11 || c == Char.ofNat 12

/-- Sentence-ending punctuation of the regex `(?<=[.!?])\s+`. -/
def isPunct (c : Char) : Bool :=
  c == '.' || c == '!' || c == '?'

/-- Accumulator worker for `wsSplit` (Python `str.split()` with no argument):
tokens are maximal runs of non-whitespace characters. -/
def wsSplitAux : Str → Str → List Str
  | [], acc => if acc = [] then [] else [acc.reverse]
  | c :: rest, acc =>
    if isWs c then
      (if acc = [] then wsSplitAux rest [] else acc.reverse :: wsSplitAux rest [])
    else
      wsSplitAux rest (c :: acc)

/-- Python `text.split()`: split on whitespace runs, dropping empty tokens. -/
def wsSplit (l : Str) : List Str := wsSplitAux l []

/-- Python `text.strip()`: drop leading and trailing whitespace. -/
def pyStrip (l : Str) : Str :=
  ((l.dropWhile (fun c => isWs c)).reverse.dropWhile (fun c => isWs c)).reverse

/-- Worker for `subWs`; the flag records whether we are inside a whitespace
run whose replacement space has already been emitted. -/
def subWsAux : Str → Bool → Str
  | [], _ => []
  | c :: rest, inRun =>
    if isWs c then
      (if inRun then subWsAux rest true else ' ' :: subWsAux rest true)
    else
      c :: subWsAux rest false

/-- Python `re.sub(r'\s+', ' ', text)`: replace each maximal whitespace run
by a single space. -/
def subWs (l : Str) : Str := subWsAux l false

/-- bot.py `clean_text`: collapse whitespace runs to one space, then strip. -/
def clean_text (l : Str) : Str := pyStrip (subWs l)

/-- Worker for `sentSplit` (Python `re.split(r'(?<=[.!?])\s+', text)`).
`acc` is the current token reversed, `prevPunct` records whether the previous
character was sentence punctuation, `inDelim` whether we are consuming a
whitespace delimiter run. -/
def sentAux : Str → Str → Bool → Bool → List Str
  | [], acc, _, _ => [acc.reverse]
  | c :: rest, acc, prevPunct, inDelim =>
    if inDelim then
      (if isWs c then sentAux rest acc prevPunct true
       else sentAux rest [c] (isPunct c) false)
    else if prevPunct && isWs c then
      acc.reverse :: sentAux rest [] false true
    else
      sentAux rest (c :: acc) (isPunct c) false

/-- Python `re.split(r'(?<=[.!?])\s+', text)`: split at whitespace runs that
immediately follow `.`, `!` or `?`. -/
def sentSplit (l : Str) : List Str := sentAux l [] false false

/-- Python `" ".join(chunks)`. -/
def joinSpace : List Str → Str
  | [] => []
  | [a] => a
  | a :: b :: rest => a ++ ' ' :: joinSpace (b :: rest)

/-- Word-level inner loop of `split_long_message` (helpers.py lines 75-87,
bot.py lines 188-200).  Returns the updated chunk list and `temp_chunk`. -/
def slmWords : List Str → List Str → Str → Nat → List Str × Str
  | [], chunks, temp, _ => (chunks, temp)
  | w :: ws, chunks, temp, m =>
    if (temp ++ w).length ≤ m then
      slmWords ws chunks (temp ++ w ++ [' ']) m
    else if temp = [] then
      slmWords ws (chunks ++ [w.take m]) (w.drop m ++ [' ']) m
    else
      slmWords ws (chunks ++ [pyStrip temp]) (w ++ [' ']) m

/-- Sentence-level loop of `split_long_message` (helpers.py lines 66-91,
bot.py lines 179-204), including the final flush of `current_chunk`. -/
def slmGo : List Str → List Str → Str → Nat → List Str
  | [], chunks, cur, _ => if cur = [] then chunks else chunks ++ [pyStrip cur]
  | s :: ss, chunks, cur, m =>
    if (cur ++ s).length ≤ m then
      slmGo ss chunks (cur ++ s ++ [' ']) m
    else if cur = [] then
      slmGo ss (slmWords (wsSplit s) chunks [] m).1 (slmWords (wsSplit s) chunks [] m).2 m
    else
      slmGo ss (chunks ++ [pyStrip cur]) (s ++ [' ']) m

/-- helpers.py / bot.py `split_long_message(text, max_length)`. -/
def split_long_message (text : Str) (maxLength : Nat) : List Str :=
  if text.length ≤ maxLength then [text]
  else slmGo (sentSplit text) [] [] maxLength

/-- Word-level inner loop of `split_twitter_thread` (bot.py lines 227-239). -/
def sttWords : List Str → List Str → Str → Nat → List Str × Str
  | [], chunks, temp, _ => (chunks, temp)
  | w :: ws, chunks, temp, m =>
    if (temp ++ ' ' :: w).length ≤ m then
      sttWords ws chunks (if temp = [] then w else temp ++ ' ' :: w) m
    else if temp = [] then
      sttWords ws (chunks ++ [w.take m]) (w.drop m) m
    else
      sttWords ws (chunks ++ [pyStrip temp]) w m

/-- Sentence-level loop of `split_twitter_thread` (bot.py lines 219-245),
including the final flush of `current_chunk`. -/
def sttGo : List Str → List Str → Str → Nat → List Str
  | [], chunks, cur, _ => if cur = [] then chunks else chunks ++ [pyStrip cur]
  | s :: ss, chunks, cur, m =>
    if (cur ++ ' ' :: s).length > m then
      (if cur = [] then
        sttGo ss (sttWords (wsSplit s) chunks [] m).1 (sttWords (wsSplit s) chunks [] m).2 m
      else
        sttGo ss (chunks ++ [pyStrip cur]) s m)
    else
      sttGo ss chunks (if cur = [] then s else cur ++ ' ' :: s) m

/-- bot.py `split_twitter_thread(text, max_length)`. -/
def split_twitter_thread (text : Str) (maxLength : Nat) : List Str :=
  if text.length ≤ maxLength then [text]
  else sttGo (sentSplit text) [] [] maxLength

/-- Per-conversation mutable state of bot.py: the `context.user_data` entries
`pending_translation` and `original_text` (lines 679-680, cleared at 613/619). -/
structure ConvState where
  pending : Option Str
  original : Option Str
deriving DecidableEq

/-- bot.py lines 679-680 in `handle_auto_translation`: store the freshly
translated text (and the original) for the conversation, overwriting any
previous entry. -/
def storeTranslation (_s : ConvState) (orig trans : Str) : ConvState :=
  { pending := some trans, original := some orig }

/-- Outcome of one tweet attempt: the external `create_tweet` either returns a
post id or raises, which the surrounding `try` converts to an error string. -/
abbrev TweetCall := Str → Option Str → Except Str Str

/-- Environment of `post_to_twitter`: whether `self.twitter_client` is set,
whether `ENABLE_TWITTER_SHARING` is on, and the external `create_tweet` call. -/
structure TwitterEnv where
  clientInit : Bool
  sharingEnabled : Bool
  createTweet : TweetCall

/-- The `result` dict of `post_to_twitter` (bot.py line 332). -/
structure TwResult where
  success : Bool
  tweets : Nat
  thread : Bool
  error : Option Str
deriving DecidableEq

/-- The `" 🧵"` continuation marker appended to the first tweet of a thread
(bot.py line 364, `f"{chunks[0]} 🧵"`). -/
def threadMarker : Str := (" 🧵").data

/-- Reply loop of the thread branch (bot.py lines 369-375): each chunk is
posted in reply to the previous tweet id; the third component records every
`create_tweet` invocation as a pair (text, reply target). -/
def twThreadLoop (env : TwitterEnv) : List Str → Str → List (Str × Option Str) →
    Except Str Unit × List (Str × Option Str)
  | [], _, tr => (Except.ok (), tr)
  | c :: cs, lastId, tr =>
    match env.createTweet c (some lastId) with
    | Except.ok id => twThreadLoop env cs id (tr ++ [(c, some lastId)])
    | Except.error e => (Except.error e, tr ++ [(c, some lastId)])

/-- bot.py `post_to_twitter` (lines 330-388), instrumented with the list of
`create_tweet` invocations actually attempted.  An empty chunk list in the
thread branch makes `chunks[0]` raise `IndexError`, caught by the same
`except` clause. -/
def post_to_twitter_core (env : TwitterEnv) (text : Str) :
    TwResult × List (Str × Option Str) :=
  if env.clientInit = false then
    (⟨false, 0, false, some (("Twitter client not initialized").data)⟩, [])
  else if env.sharingEnabled = false then
    (⟨false, 0, false, some (("Twitter sharing disabled").data)⟩, [])
  else if text.length ≤ 270 then
    match env.createTweet text none with
    | Except.ok _ => (⟨true, 1, false, none⟩, [(text, none)])
    | Except.error e => (⟨false, 0, false, some e⟩, [(text, none)])
  else
    match split_twitter_thread text 270 with
    | [] => (⟨false, 0, false, some (("list index out of range").data)⟩, [])
    | c0 :: rest =>
      match env.createTweet (c0 ++ threadMarker) none with
      | Except.error e => (⟨false, 0, false, some e⟩, [(c0 ++ threadMarker, none)])
      | Except.ok id0 =>
        match twThreadLoop env rest id0 [(c0 ++ threadMarker, none)] with
        | (Except.ok _, tr) => (⟨true, (c0 :: rest).length, true, none⟩, tr)
        | (Except.error e, tr) => (⟨false, 0, false, some e⟩, tr)

/-- bot.py `post_to_twitter`, forgetting the instrumentation. -/
def post_to_twitter (env : TwitterEnv) (text : Str) : TwResult :=
  (post_to_twitter_core env text).1

/-- Environment of `post_to_telegram`: the external `bot.send_message` call,
returning a message id or an error string for a raised exception. -/
structure TelegramEnv where
  sendMessage : Str → Except Str Str

/-- The `result` dict of `post_to_telegram` (bot.py line 392). -/
structure TgResult where
  success : Bool
  messages : Nat
  error : Option Str
deriving DecidableEq

/-- The `f"📝 Parte {i+1}/{n}:\n\n"` part indicator (bot.py line 403). -/
def partHeader (i n : Nat) : Str :=
  (("📝 Parte ").data) ++ (Nat.repr (i + 1)).data ++ ['/'] ++ (Nat.repr n).data ++ ((":\n\n").data)

/-- Send loop of `post_to_telegram` (bot.py lines 400-415): each chunk is sent
in order, prefixed with the part indicator when there are several chunks; the
first raised exception aborts the remaining sends. -/
def tgLoop (env : TelegramEnv) (n : Nat) : List Str → Nat → Except Str Unit
  | [], _ => Except.ok ()
  | c :: cs, i =>
    match env.sendMessage (if 1 < n then partHeader i n ++ c else c) with
    | Except.ok _ => tgLoop env n cs (i + 1)
    | Except.error e => Except.error e

/-- bot.py `post_to_telegram` (lines 390-426). -/
def post_to_telegram (env : TelegramEnv) (text : Str) : TgResult :=
  match tgLoop env (split_long_message text 4000).length (split_long_message text 4000) 0 with
  | Except.ok _ => ⟨true, (split_long_message text 4000).length, none⟩
  | Except.error e => ⟨false, 0, some e⟩

/-- The fan-out of `handle_button_callback` (bot.py lines 579-580): on a
confirmed share, both sinks are invoked with the stored translation. -/
def dispatchBoth (tw : TwitterEnv) (tg : TelegramEnv) (text : Str) :
    TwResult × TgResult :=
  (post_to_twitter tw text, post_to_telegram tg text)

/-- bot.py `handle_button_callback`, `confirm_share` branch (lines 565-613):
with a pending translation the text is dispatched to both sinks and the
per-conversation state is cleared (`context.user_data.clear()`); with nothing
pending (`if not translation`, i.e. `None` or empty) the handler reports
"No hay traducción pendiente" — modelled as the `none` outcome — and leaves
the state untouched. -/
def confirmDispatch (tw : TwitterEnv) (tg : TelegramEnv) (s : ConvState) :
    Option (TwResult × TgResult) × ConvState :=
  match s.pending with
  | none => (none, s)
  | some t =>
    if t = [] then (none, s)
    else (some (dispatchBoth tw tg t), ⟨none, none⟩)

/-- bot.py `handle_button_callback`, `deny_share` branch (lines 615-619):
the state is cleared and nothing is dispatched. -/
def denyShare (_s : ConvState) : ConvState := ⟨none, none⟩

/-- Proof helper: remove trailing whitespace only. -/
def stripTrail (l : Str) : Str := (l.reverse.dropWhile (fun c => isWs c)).reverse

/-- Proof helper: the invocation trace of the thread reply loop when every
`create_tweet` call succeeds, the ids being computed by `f`. -/
def okChain (f : Str → Option Str → Str) : List Str → Str → List (Str × Option Str)
  | [], _ => []
  | c :: cs, lastId => (c, some lastId) :: okChain f cs (f c (some lastId))

/-- Sample working environment for witnesses. -/
def sampleTw : TwitterEnv := ⟨true, true, fun _ _ => Except.ok (("id1").data)⟩

/-- Sample environment whose client is not initialized, for witnesses. -/
def sampleTwOff : TwitterEnv := ⟨false, true, fun _ _ => Except.ok (("id1").data)⟩

/-- Sample chat-sink environment for witnesses. -/
def sampleTg : TelegramEnv := ⟨fun _ => Except.ok (("7").data)⟩

/-! Generic list helpers. -/

theorem takeWhile_mem {α : Type} (p : α → Bool) :
    ∀ (l : List α) (a : α), a ∈ l.takeWhile p → p a = true
  | [], a, h => by simp [List.takeWhile] at h
  | b :: l, a, h => by
    by_cases hb : p b = true
    · rw [List.takeWhile_cons, if_pos hb] at h
      rcases List.mem_cons.mp h with h | h
      · subst h; exact hb
      · exact takeWhile_mem p l a h
    · rw [List.takeWhile_cons, if_neg hb] at h
      simp at h

theorem dropWhile_length_le {α : Type} (p : α → Bool) :
    ∀ (l : List α), (l.dropWhile p).length ≤ l.length
  | [] => le_rfl
  | a :: l => by
    by_cases ha : p a = true
    · rw [List.dropWhile_cons, if_pos ha]
      exact le_trans (dropWhile_length_le p l) (by simp)
    · rw [List.dropWhile_cons, if_neg ha]

theorem dropWhile_append_eq {α : Type} [DecidableEq α] (p : α → Bool) :
    ∀ (u v : List α), (u ++ v).dropWhile p
      = if u.dropWhile p = [] then v.dropWhile p else u.dropWhile p ++ v
  | [], v => by simp
  | a :: u, v => by
    by_cases ha : p a = true <;>
      simp [List.dropWhile_cons, ha, dropWhile_append_eq p u v]

/-! Lemmas about `wsSplit` (Python `str.split()`). -/

theorem wsSplitAux_sep {c : Char} (hc : isWs c = true) (b : Str) :
    ∀ (a acc : Str), wsSplitAux (a ++ c :: b) acc = wsSplitAux a acc ++ wsSplitAux b []
  | [], acc => by by_cases h : acc = [] <;> simp [wsSplitAux, hc, h]
  | d :: a, acc => by
    by_cases hd : isWs d <;> by_cases h : acc = [] <;>
      simp [wsSplitAux, hd, h, wsSplitAux_sep hc b a]

theorem wsSplit_ws_cons {c : Char} (hc : isWs c = true) (l : Str) :
    wsSplit (c :: l) = wsSplit l := by
  simp [wsSplit, wsSplitAux, hc]

theorem wsSplit_sep {c : Char} (hc : isWs c = true) (a b : Str) :
    wsSplit (a ++ c :: b) = wsSplit a ++ wsSplit b :=
  wsSplitAux_sep hc b a []

theorem wsSplit_trailing_ws {c : Char} (hc : isWs c = true) (a : Str) :
    wsSplit (a ++ [c]) = wsSplit a := by
  have h := wsSplit_sep hc a []
  simpa [wsSplit, wsSplitAux] using h

theorem wsSplit_dropWhile (l : Str) :
    wsSplit (l.dropWhile (fun c => isWs c)) = wsSplit l := by
  induction l with
  | nil => rfl
  | cons c l ih =>
    by_cases hc : isWs c = true
    · rw [show (c :: l).dropWhile (fun c => isWs c) = l.dropWhile (fun c => isWs c) by
        simp [List.dropWhile_cons, hc], ih, wsSplit_ws_cons hc]
    · simp [List.dropWhile_cons, hc]

theorem wsSplitAux_all_ws_nil : ∀ (t : Str), (∀ c ∈ t, isWs c = true) → wsSplitAux t [] = []
  | [], _ => rfl
  | c :: t, h => by
    have hc : isWs c = true := h c (by simp)
    simpa [wsSplitAux, hc] using wsSplitAux_all_ws_nil t (fun a ha => h a (by simp [ha]))

theorem wsSplitAux_trailing_all_ws {t : Str} (ht : ∀ c ∈ t, isWs c = true) :
    ∀ (y acc : Str), wsSplitAux (y ++ t) acc = wsSplitAux y acc
  | [], acc => by
    cases t with
    | nil => simp
    | cons c t2 =>
      have hc : isWs c = true := ht c (by simp)
      have h2 : ∀ a ∈ t2, isWs a = true := fun a ha => ht a (by simp [ha])
      by_cases h : acc = [] <;>
        simp [wsSplitAux, hc, h, wsSplitAux_all_ws_nil t2 h2]
  | d :: y, acc => by
    by_cases hd : isWs d <;> by_cases h : acc = [] <;>
      simp [wsSplitAux, hd, h, wsSplitAux_trailing_all_ws ht y]

theorem wsSplit_trailing_run {y t : Str} (ht : ∀ c ∈ t, isWs c = true) :
    wsSplit (y ++ t) = wsSplit y :=
  wsSplitAux_trailing_all_ws ht y []

theorem wsSplitAux_wsfree_acc : ∀ (t : Str), (∀ c ∈ t, isWs c = false) →
    ∀ (d acc : Str), wsSplitAux (t ++ d) acc = wsSplitAux d (t.reverse ++ acc)
  | [], _, d, acc => by simp
  | c :: t, h, d, acc => by
    have hc : isWs c = false := h c (by simp)
    have h2 : ∀ a ∈ t, isWs a = false := fun a ha => h a (by simp [ha])
    simp [wsSplitAux, hc, wsSplitAux_wsfree_acc t h2 d (c :: acc)]

theorem wsSplit_wsfree {w : Str} (h : ∀ c ∈ w, isWs c = false) (hne : w ≠ []) :
    wsSplit w = [w] := by
  have h1 := wsSplitAux_wsfree_acc w h [] []
  rw [List.append_nil] at h1
  rw [wsSplit, h1]
  simp [wsSplitAux, hne]

theorem wsSplitAux_mem : ∀ (l acc : Str), (∀ c ∈ acc, isWs c = false) →
    ∀ w ∈ wsSplitAux l acc, w ≠ [] ∧ ∀ c ∈ w, isWs c = false
  | [], acc, hacc => by
    by_cases h : acc = []
    · simp [wsSplitAux, h]
    · intro w hw
      rw [wsSplitAux, if_neg h] at hw
      rcases List.mem_cons.mp hw with h1 | h1
      · subst h1
        exact ⟨by simpa using h, fun c hc => hacc c (by simpa using hc)⟩
      · simp at h1
  | c :: l, acc, hacc => by
    intro w hw
    by_cases hc : isWs c = true
    · by_cases h : acc = []
      · rw [wsSplitAux, if_pos hc, if_pos h] at hw
        exact wsSplitAux_mem l [] (by simp) w hw
      · rw [wsSplitAux, if_pos hc, if_neg h] at hw
        rcases List.mem_cons.mp hw with h1 | h1
        · subst h1
          exact ⟨by simpa using h, fun a ha => hacc a (by simpa using ha)⟩
        · exact wsSplitAux_mem l [] (by simp) w h1
    · rw [wsSplitAux, if_neg hc] at hw
      refine wsSplitAux_mem l (c :: acc) ?_ w hw
      intro a ha
      rcases List.mem_cons.mp ha with h1 | h1
      · subst h1; simpa using hc
      · exact hacc a h1

theorem wsSplit_mem {l : Str} : ∀ w ∈ wsSplit l, w ≠ [] ∧ ∀ c ∈ w, isWs c = false :=
  wsSplitAux_mem l [] (by simp)

theorem wsSplitAux_ne_nil_of_acc : ∀ (l acc : Str), acc ≠ [] → wsSplitAux l acc ≠ []
  | [], acc, h => by simp [wsSplitAux, h]
  | c :: l, acc, h => by
    by_cases hc : isWs c = true <;> simp [wsSplitAux, hc, h] <;>
      exact wsSplitAux_ne_nil_of_acc l (c :: acc) (by simp)

theorem wsSplit_cons_ne_nil {c : Char} (hc : isWs c = false) (l : Str) :
    wsSplit (c :: l) ≠ [] := by
  rw [wsSplit, wsSplitAux, if_neg (by simp [hc])]
  exact wsSplitAux_ne_nil_of_acc l [c] (by simp)

theorem wsSplit_wsfree_append {t d : Str} (htf : ∀ c ∈ t, isWs c = false) (hne : t ≠ [])
    (hd : d = [] ∨ ∃ e tl, d = e :: tl ∧ isWs e = true) :
    wsSplit (t ++ d) = t :: wsSplit d := by
  have h1 := wsSplitAux_wsfree_acc t htf d []
  rw [wsSplit, h1, List.append_nil]
  rcases hd with h | ⟨e, tl, rfl, he⟩
  · subst h; simp [wsSplitAux, wsSplit, hne]
  · rw [wsSplitAux, if_pos he, if_neg (by simpa using hne)]
    rw [wsSplit_ws_cons he]
    simp [wsSplit]

theorem wsSplit_pyStrip (z : Str) : wsSplit (pyStrip z) = wsSplit z := by
  have h2 : wsSplit (z.dropWhile (fun c => isWs c)) = wsSplit z := wsSplit_dropWhile z
  set u := z.dropWhile (fun c => isWs c) with hu
  have hdecomp : u = ((u.reverse.dropWhile (fun c => isWs c)).reverse)
      ++ ((u.reverse.takeWhile (fun c => isWs c)).reverse) := by
    conv_lhs => rw [← List.reverse_reverse u,
      ← List.takeWhile_append_dropWhile (p := fun c => isWs c) (l := u.reverse)]
    rw [List.reverse_append]
  have hall : ∀ c ∈ (u.reverse.takeWhile (fun c => isWs c)).reverse, isWs c = true := by
    intro c hcmem
    exact takeWhile_mem _ _ c (by simpa using hcmem)
  have h3 : wsSplit ((u.reverse.dropWhile (fun c => isWs c)).reverse) = wsSplit u := by
    conv_rhs => rw [hdecomp]
    exact (wsSplit_trailing_run hall).symm
  rw [pyStrip]
  rw [← hu, h3, h2]

/-! Lemmas about `sentSplit`, `joinSpace` and `clean_text`. -/

theorem sentAux_words : ∀ (l acc : Str) (p d : Bool), (d = true → acc = []) →
    ((sentAux l acc p d).map wsSplit).flatten = wsSplit (acc.reverse ++ l)
  | [], acc, p, d, _ => by simp [sentAux]
  | c :: rest, acc, p, d, h => by
    cases d with
    | true =>
      have hacc : acc = [] := h rfl
      subst hacc
      by_cases hc : isWs c = true
      · rw [sentAux, if_pos rfl, if_pos hc]
        rw [sentAux_words rest [] p true (fun _ => rfl)]
        simp [wsSplit_ws_cons hc]
      · rw [sentAux, if_pos rfl, if_neg hc]
        have h2 := sentAux_words rest [c] (isPunct c) false (by simp)
        simpa using h2
    | false =>
      by_cases hpc : (p && isWs c) = true
      · have hcw : isWs c = true := by
          have h2 : p = true ∧ isWs c = true := by simpa using hpc
          exact h2.2
        rw [sentAux, if_neg (by simp), if_pos hpc]
        simp only [List.map_cons, List.flatten_cons]
        rw [sentAux_words rest [] false true (fun _ => rfl)]
        rw [wsSplit_sep hcw acc.reverse rest]
        simp
      · rw [sentAux, if_neg (by simp), if_neg hpc]
        have h2 := sentAux_words rest (c :: acc) (isPunct c) false (by simp)
        rw [h2]
        simp

theorem sentSplit_words (l : Str) : ((sentSplit l).map wsSplit).flatten = wsSplit l := by
  have h := sentAux_words l [] false false (by simp)
  simpa [sentSplit] using h

theorem wsSplit_joinSpace : ∀ (L : List Str),
    wsSplit (joinSpace L) = (L.map wsSplit).flatten
  | [] => by simp [joinSpace, wsSplit, wsSplitAux]
  | [a] => by simp [joinSpace]
  | a :: b :: rest => by
    rw [joinSpace, wsSplit_sep (by simp [isWs]) a (joinSpace (b :: rest))]
    rw [wsSplit_joinSpace (b :: rest)]
    simp

theorem subWsAux_true_dropWhile : ∀ (x : Str),
    subWsAux x true = subWsAux (x.dropWhile (fun c => isWs c)) false
  | [] => rfl
  | c :: r => by
    by_cases hc : isWs c = true
    · rw [subWsAux, if_pos hc, if_pos rfl]
      rw [List.dropWhile_cons, if_pos (by simpa using hc)]
      exact subWsAux_true_dropWhile r
    · rw [subWsAux, if_neg hc]
      rw [List.dropWhile_cons, if_neg (by simpa using hc)]
      rw [subWsAux, if_neg hc]

theorem subWsAux_wsfree_append {t : Str} (ht : ∀ c ∈ t, isWs c = false) :
    ∀ (y : Str), subWsAux (t ++ y) false = t ++ subWsAux y false := by
  induction t with
  | nil => intro y; simp
  | cons c t ih =>
    intro y
    have hc : isWs c = false := ht c (by simp)
    rw [List.cons_append, subWsAux, if_neg (by simp [hc])]
    rw [ih (fun a ha => ht a (by simp [ha])) y]
    simp

theorem pyStrip_ws_cons {c : Char} (hc : isWs c = true) (z : Str) :
    pyStrip (c :: z) = pyStrip z := by
  rw [pyStrip, pyStrip, List.dropWhile_cons, if_pos (by simpa using hc)]

theorem dropWhile_wsfree {z : Str} (h : ∀ c ∈ z, isWs c = false) :
    z.dropWhile (fun c => isWs c) = z := by
  cases z with
  | nil => rfl
  | cons c z => rw [List.dropWhile_cons, if_neg (by simp [h c (by simp)])]

theorem stripTrail_wsfree {z : Str} (h : ∀ c ∈ z, isWs c = false) :
    stripTrail z = z := by
  rw [stripTrail, dropWhile_wsfree (fun c hc => h c (by simpa using hc)), List.reverse_reverse]

theorem pyStrip_wsfree {z : Str} (h : ∀ c ∈ z, isWs c = false) :
    pyStrip z = z := by
  rw [pyStrip, dropWhile_wsfree h, dropWhile_wsfree (fun c hc => h c (by simpa using hc)),
    List.reverse_reverse]

theorem stripTrail_trailing_ws {c : Char} (hc : isWs c = true) (u : Str) :
    stripTrail (u ++ [c]) = stripTrail u := by
  rw [stripTrail, stripTrail, List.reverse_append, List.reverse_cons, List.reverse_nil,
    List.nil_append, List.singleton_append, List.dropWhile_cons, if_pos (by simpa using hc)]

theorem stripTrail_append_of_ne_nil {z : Str} (hz : stripTrail z ≠ []) (u : Str) :
    stripTrail (u ++ z) = u ++ stripTrail z := by
  rw [stripTrail, List.reverse_append, dropWhile_append_eq]
  rw [if_neg (by
    intro h
    apply hz
    rw [stripTrail, h, List.reverse_nil])]
  rw [List.reverse_append, List.reverse_reverse, stripTrail]

theorem stripTrail_cons_ne_nil {c : Char} (hc : isWs c = false) (z : Str) :
    stripTrail (c :: z) ≠ [] := by
  rw [stripTrail]
  intro h
  rw [List.reverse_eq_nil_iff] at h
  have hmem : c ∈ (c :: z).reverse.dropWhile (fun a => isWs a) := by
    by_contra hnm
    have : ∀ a ∈ (c :: z).reverse, isWs a = true := by
      have hsplit := List.takeWhile_append_dropWhile (p := fun a => isWs a) (l := (c :: z).reverse)
      intro a ha
      rw [← hsplit] at ha
      rcases List.mem_append.mp ha with h1 | h1
      · exact takeWhile_mem _ _ a h1
      · rw [h] at h1; simp at h1
    have := this c (by simp)
    rw [hc] at this; exact Bool.false_ne_true this
  rw [h] at hmem
  simp at hmem

theorem pyStrip_eq_stripTrail_of_head {c : Char} (hc : isWs c = false) (z : Str) :
    pyStrip (c :: z) = stripTrail (c :: z) := by
  rw [pyStrip, stripTrail, List.dropWhile_cons, if_neg (by simp [hc])]

theorem dropWhile_head_false {α : Type} (p : α → Bool) :
    ∀ (l : List α) (e : α) (tl : List α), l.dropWhile p = e :: tl → p e = false
  | [], _, _, h => by simp at h
  | a :: l, e, tl, h => by
    by_cases ha : p a = true
    · rw [List.dropWhile_cons, if_pos ha] at h
      exact dropWhile_head_false p l e tl h
    · rw [List.dropWhile_cons, if_neg ha] at h
      cases h
      simpa using ha

theorem joinSpace_cons_of_ne_nil (a : Str) {W : List Str} (h : W ≠ []) :
    joinSpace (a :: W) = a ++ ' ' :: joinSpace W := by
  cases W with
  | nil => exact absurd rfl h
  | cons w W2 => rfl

theorem clean_text_eq_joinSpace (x : Str) : clean_text x = joinSpace (wsSplit x) := by
  suffices H : ∀ (n : Nat) (y : Str), y.length ≤ n → clean_text y = joinSpace (wsSplit y) from
    H x.length x le_rfl
  intro n
  induction n with
  | zero =>
    intro y hy
    have hnil : y = [] := List.eq_nil_of_length_eq_zero (Nat.le_zero.mp hy)
    subst hnil; rfl
  | succ n IH =>
    intro y hy
    match y with
    | [] => rfl
    | c :: r =>
      have hrn : r.length ≤ n := by
        have : r.length + 1 ≤ n + 1 := by simpa using hy
        omega
      by_cases hc : isWs c = true
      · have hr2 : (r.dropWhile (fun a => isWs a)).length ≤ n :=
          le_trans (dropWhile_length_le _ _) hrn
        have h1 : clean_text (c :: r) = clean_text (r.dropWhile (fun a => isWs a)) := by
          rw [clean_text, clean_text, subWs, subWs]
          rw [show subWsAux (c :: r) false = ' ' :: subWsAux r true by
            simp [subWsAux, hc]]
          rw [subWsAux_true_dropWhile r]
          exact pyStrip_ws_cons (by decide) _
        rw [h1, IH _ hr2, wsSplit_dropWhile r, wsSplit_ws_cons hc]
      · have hcf : isWs c = false := by simpa using hc
        obtain ⟨t0, d, hr_eq, ht0, hd_shape⟩ :
            ∃ t0 d, r = t0 ++ d ∧ (∀ a ∈ t0, isWs a = false)
              ∧ (d = [] ∨ ∃ e tl, d = e :: tl ∧ isWs e = true) := by
          refine ⟨r.takeWhile (fun a => !isWs a), r.dropWhile (fun a => !isWs a),
            (List.takeWhile_append_dropWhile (l := r) (p := fun a => !isWs a)).symm, ?_, ?_⟩
          · intro a ha; simpa using takeWhile_mem _ _ a ha
          · cases hcase : r.dropWhile (fun a => !isWs a) with
            | nil => exact Or.inl rfl
            | cons e tl =>
              refine Or.inr ⟨e, tl, rfl, ?_⟩
              have h2 := dropWhile_head_false _ r e tl hcase
              simpa using h2
        have htf : ∀ a ∈ c :: t0, isWs a = false := by
          intro a ha
          rcases List.mem_cons.mp ha with h1 | h1
          · subst h1; exact hcf
          · exact ht0 a h1
        have hx : c :: r = (c :: t0) ++ d := by rw [hr_eq]; rfl
        have hsub : subWs (c :: r) = (c :: t0) ++ subWsAux d false := by
          rw [subWs, hx]
          exact subWsAux_wsfree_append htf d
        rcases hd_shape with hdnil | ⟨e, d1, hd_eq, he⟩
        · -- the whole remainder is the non-whitespace run
          subst hdnil
          have h1 : clean_text (c :: r) = c :: t0 := by
            rw [clean_text, hsub]
            rw [show subWsAux [] false = [] from rfl, List.append_nil]
            exact pyStrip_wsfree htf
          have h2 : wsSplit (c :: r) = [c :: t0] := by
            rw [hx, List.append_nil]
            exact wsSplit_wsfree htf (by simp)
          rw [h1, h2]
          rfl
        · have hsub2 : subWsAux d false
              = ' ' :: subWsAux (d1.dropWhile (fun a => isWs a)) false := by
            rw [hd_eq]
            simp [subWsAux, he, subWsAux_true_dropWhile d1]
          rcases hcase : d1.dropWhile (fun a => isWs a) with _ | ⟨f, d3⟩
          · -- the tail whitespace run ends the string
            have h1 : clean_text (c :: r) = c :: t0 := by
              rw [clean_text, hsub, hsub2, hcase]
              rw [show subWsAux [] false = [] from rfl]
              rw [List.cons_append, pyStrip_eq_stripTrail_of_head hcf, ← List.cons_append,
                stripTrail_trailing_ws (by decide), stripTrail_wsfree htf]
            have h2 : wsSplit (c :: r) = [c :: t0] := by
              rw [hx, wsSplit_wsfree_append htf (by simp) (Or.inr ⟨e, d1, hd_eq, he⟩), hd_eq,
                wsSplit_ws_cons he, ← wsSplit_dropWhile d1, hcase]
              simp [wsSplit, wsSplitAux]
            rw [h1, h2]
            rfl
          · -- more material follows the whitespace run
            have hf : isWs f = false := by
              simpa using dropWhile_head_false _ d1 f d3 hcase
            have hz : subWsAux (f :: d3) false = f :: subWsAux d3 false := by
              rw [subWsAux, if_neg (by simp [hf])]
            have hztail : stripTrail (f :: subWsAux d3 false) ≠ [] :=
              stripTrail_cons_ne_nil hf _
            have l1 : (d1.dropWhile (fun a => isWs a)).length ≤ d1.length :=
              dropWhile_length_le _ _
            have l2 : d.length ≤ r.length := by rw [hr_eq]; simp
            have l3 : d.length = d1.length + 1 := by rw [hd_eq]; rfl
            have hd2n : (f :: d3).length ≤ n := by
              rw [← hcase]; omega
            have h1 : clean_text (c :: r)
                = ((c :: t0) ++ [' ']) ++ clean_text (f :: d3) := by
              have e1 : clean_text (c :: r)
                  = pyStrip ((c :: t0) ++ ' ' :: (f :: subWsAux d3 false)) := by
                rw [clean_text, hsub, hsub2, hcase, hz]
              have e2 : (c :: t0) ++ ' ' :: (f :: subWsAux d3 false)
                  = c :: (t0 ++ ' ' :: (f :: subWsAux d3 false)) := by simp
              rw [e1, e2, pyStrip_eq_stripTrail_of_head hcf]
              rw [show c :: (t0 ++ ' ' :: (f :: subWsAux d3 false))
                  = ((c :: t0) ++ [' ']) ++ (f :: subWsAux d3 false) by simp]
              rw [stripTrail_append_of_ne_nil hztail]
              rw [← pyStrip_eq_stripTrail_of_head hf]
              rw [clean_text, subWs, hz]
            have h2 : wsSplit (c :: r) = (c :: t0) :: wsSplit (f :: d3) := by
              rw [hx, wsSplit_wsfree_append htf (by simp) (Or.inr ⟨e, d1, hd_eq, he⟩), hd_eq,
                wsSplit_ws_cons he, ← wsSplit_dropWhile d1, hcase]
            rw [h1, h2, IH _ hd2n]
            rw [joinSpace_cons_of_ne_nil _ (wsSplit_cons_ne_nil hf d3)]
            simp

/-! Word preservation through the chunking loops of `split_long_message`. -/

theorem wsSplit_endsp_append {a : Str} (h : a = [] ∨ ∃ u, a = u ++ [' ']) (b : Str) :
    wsSplit (a ++ b) = wsSplit a ++ wsSplit b := by
  rcases h with rfl | ⟨u, rfl⟩
  · simp [wsSplit, wsSplitAux]
  · rw [List.append_assoc, List.singleton_append, wsSplit_sep (by decide) u b,
      wsSplit_trailing_ws (by decide) u]

theorem slmWords_inv : ∀ (ws chunks : List Str) (temp : Str) (m : Nat),
    (∀ w ∈ ws, w.length ≤ m ∧ w ≠ [] ∧ ∀ c ∈ w, isWs c = false) →
    (temp = [] ∨ ∃ u, temp = u ++ [' ']) →
    (((slmWords ws chunks temp m).1.map wsSplit).flatten ++ wsSplit (slmWords ws chunks temp m).2
        = (chunks.map wsSplit).flatten ++ wsSplit temp ++ ws)
      ∧ ((slmWords ws chunks temp m).2 = [] ∨ ∃ u, (slmWords ws chunks temp m).2 = u ++ [' '])
  | [], chunks, temp, m, _, hend => by
    constructor
    · simp [slmWords]
    · simpa [slmWords] using hend
  | w :: ws, chunks, temp, m, hw, hend => by
    have hw0 := hw w (by simp)
    have hwrest : ∀ v ∈ ws, v.length ≤ m ∧ v ≠ [] ∧ ∀ c ∈ v, isWs c = false :=
      fun v hv => hw v (by simp [hv])
    by_cases hfits : (temp ++ w).length ≤ m
    · have heq : slmWords (w :: ws) chunks temp m = slmWords ws chunks (temp ++ w ++ [' ']) m := by
        rw [slmWords, if_pos hfits]
      obtain ⟨ih1, ih2⟩ := slmWords_inv ws chunks (temp ++ w ++ [' ']) m hwrest
        (Or.inr ⟨temp ++ w, rfl⟩)
      rw [heq]
      refine ⟨?_, ih2⟩
      rw [ih1]
      have h2 : wsSplit (temp ++ w ++ [' ']) = wsSplit temp ++ [w] := by
        rw [List.append_assoc, wsSplit_endsp_append hend (w ++ [' ']),
          wsSplit_trailing_ws (by decide) w, wsSplit_wsfree hw0.2.2 hw0.2.1]
      rw [h2]
      simp
    · by_cases htemp : temp = []
      · exfalso
        apply hfits
        subst htemp
        simpa using hw0.1
      · have heq : slmWords (w :: ws) chunks temp m
            = slmWords ws (chunks ++ [pyStrip temp]) (w ++ [' ']) m := by
          rw [slmWords, if_neg hfits, if_neg htemp]
        obtain ⟨ih1, ih2⟩ := slmWords_inv ws (chunks ++ [pyStrip temp]) (w ++ [' ']) m hwrest
          (Or.inr ⟨w, rfl⟩)
        rw [heq]
        refine ⟨?_, ih2⟩
        rw [ih1, wsSplit_trailing_ws (by decide) w, wsSplit_wsfree hw0.2.2 hw0.2.1]
        simp [wsSplit_pyStrip]

theorem slmGo_inv : ∀ (ss chunks : List Str) (cur : Str) (m : Nat),
    (∀ s ∈ ss, ∀ w ∈ wsSplit s, w.length ≤ m) →
    (cur = [] ∨ ∃ u, cur = u ++ [' ']) →
    ((slmGo ss chunks cur m).map wsSplit).flatten
      = (chunks.map wsSplit).flatten ++ wsSplit cur ++ ((ss.map wsSplit).flatten)
  | [], chunks, cur, m, _, _ => by
    by_cases hcur : cur = []
    · simp [slmGo, hcur, wsSplit, wsSplitAux]
    · rw [slmGo, if_neg hcur]
      simp [wsSplit_pyStrip]
  | s :: ss, chunks, cur, m, hs, hend => by
    have hsrest : ∀ t ∈ ss, ∀ w ∈ wsSplit t, w.length ≤ m := fun t ht => hs t (by simp [ht])
    by_cases hfits : (cur ++ s).length ≤ m
    · have heq : slmGo (s :: ss) chunks cur m = slmGo ss chunks (cur ++ s ++ [' ']) m := by
        rw [slmGo, if_pos hfits]
      rw [heq, slmGo_inv ss chunks (cur ++ s ++ [' ']) m hsrest (Or.inr ⟨cur ++ s, rfl⟩)]
      have h2 : wsSplit (cur ++ s ++ [' ']) = wsSplit cur ++ wsSplit s := by
        rw [List.append_assoc, wsSplit_endsp_append hend (s ++ [' ']),
          wsSplit_trailing_ws (by decide) s]
      rw [h2]
      simp
    · by_cases hcur : cur = []
      · have heq : slmGo (s :: ss) chunks cur m
            = slmGo ss (slmWords (wsSplit s) chunks [] m).1
                (slmWords (wsSplit s) chunks [] m).2 m := by
          rw [slmGo, if_neg hfits, if_pos hcur]
        have hwords : ∀ w ∈ wsSplit s, w.length ≤ m ∧ w ≠ [] ∧ ∀ c ∈ w, isWs c = false := by
          intro w hwmem
          exact ⟨hs s (by simp) w hwmem, (wsSplit_mem w hwmem).1, (wsSplit_mem w hwmem).2⟩
        obtain ⟨wi1, wi2⟩ := slmWords_inv (wsSplit s) chunks [] m hwords (Or.inl rfl)
        rw [heq, slmGo_inv ss _ _ m hsrest wi2, wi1, hcur]
        simp
      · have heq : slmGo (s :: ss) chunks cur m
            = slmGo ss (chunks ++ [pyStrip cur]) (s ++ [' ']) m := by
          rw [slmGo, if_neg hfits, if_neg hcur]
        rw [heq, slmGo_inv ss _ _ m hsrest (Or.inr ⟨s, rfl⟩),
          wsSplit_trailing_ws (by decide) s]
        simp [wsSplit_pyStrip]

/-! Claim theorems. -/

/-- C1: the claimed length bound `len(chunk) <= max_length` fails on the code.
Evaluating `split_long_message` and `split_twitter_thread` on the input
`"Hi. AAAAAAAAAA"` with `max_length = 5` shows that both return the chunk
`"AAAAAAAAAA"` of length 10 > 5: a sentence longer than `max_length` arriving
while the buffer is non-empty is carried over whole, bypassing the word-level
fallback, so the documented bound is violated. -/
theorem c1_length_bound_violation :
    split_long_message (("Hi. AAAAAAAAAA").data) 5
        = [("Hi.").data, ("AAAAAAAAAA").data]
      ∧ split_twitter_thread (("Hi. AAAAAAAAAA").data) 5
        = [("Hi.").data, ("AAAAAAAAAA").data]
      ∧ (("AAAAAAAAAA").data).length = 10 := by
  refine ⟨by decide, by decide, by decide⟩

/-- C2 counterexample: the round-trip claim fails as stated.  For
`text = "AAAAAAAAAA"` and `max_length = 5` the forced character-level split
inserts a space inside the word, so joining the chunks and normalizing does
not reproduce `normalize(text)`. -/
theorem c2_roundtrip_counterexample :
    clean_text (joinSpace (split_long_message (("AAAAAAAAAA").data) 5))
      ≠ clean_text (("AAAAAAAAAA").data) := by
  decide

/-- C2 amended: for every `text` and `max_length >= 1` such that every
whitespace-delimited word of `text` has length at most `max_length` (so the
forced character-level split never fires), joining the chunks returned by
`split_long_message` with a single space and then normalizing with
`clean_text` yields exactly `clean_text text`: no characters are lost,
duplicated or reordered. -/
theorem c2_roundtrip_amended (text : Str) (m : Nat) (h1 : 1 ≤ m)
    (hw : ∀ w ∈ wsSplit text, w.length ≤ m) :
    clean_text (joinSpace (split_long_message text m)) = clean_text text := by
  by_cases hfast : text.length ≤ m
  · rw [split_long_message, if_pos hfast]
    rfl
  · rw [split_long_message, if_neg hfast]
    have hs : ∀ s ∈ sentSplit text, ∀ w ∈ wsSplit s, w.length ≤ m := by
      intro s hsmem w hwmem
      apply hw
      rw [← sentSplit_words text]
      exact List.mem_flatten.mpr ⟨wsSplit s, List.mem_map_of_mem _ hsmem, hwmem⟩
    have hinv := slmGo_inv (sentSplit text) [] [] m hs (Or.inl rfl)
    rw [clean_text_eq_joinSpace, clean_text_eq_joinSpace, wsSplit_joinSpace, hinv,
      sentSplit_words text]
    simp [wsSplit, wsSplitAux]

/-- C2 witness: the amended round-trip theorem applied at the concrete input
`"Hello world. Bye."` with `max_length = 12`. -/
theorem c2_roundtrip_amended_witness :
    clean_text (joinSpace (split_long_message (("Hello world. Bye.").data) 12))
      = clean_text (("Hello world. Bye.").data) :=
  c2_roundtrip_amended (("Hello world. Bye.").data) 12 (by decide) (by decide)

/-- C3 counterexample: the two splitters are not the same function.  On
`text = "A  B. XY."` with `max_length = 5` the long-form splitter keeps the
first sentence verbatim (`"A  B."`, two inner spaces) while the short-form
splitter rebuilds it from words (`"A B."`, one space). -/
theorem c3_counterexample :
    split_long_message (("A  B. XY.").data) 5
      ≠ split_twitter_thread (("A  B. XY.").data) 5 := by
  decide

/-- C3 amended: `split_long_message` and `split_twitter_thread` agree on the
single-chunk fast path — whenever `len(text) <= max_length` both return
`[text]` — but they are distinct algorithms in general, differing in boundary
conditions and whitespace handling. -/
theorem c3_fastpath_agree (text : Str) (m : Nat) (h : text.length ≤ m) :
    split_long_message text m = split_twitter_thread text m := by
  rw [split_long_message, if_pos h, split_twitter_thread, if_pos h]

/-- C3 witness: the fast-path agreement at the concrete input `"Hello."`
with `max_length = 10`. -/
theorem c3_fastpath_agree_witness :
    split_long_message (("Hello.").data) 10 = split_twitter_thread (("Hello.").data) 10 :=
  c3_fastpath_agree (("Hello.").data) 10 (by decide)

/-- C8 counterexample: on the empty string the splitter does not return an
empty sequence; the fast path returns the one-element list `[""]`. -/
theorem c8_empty_counterexample :
    split_long_message [] 1 ≠ ([] : List Str) := by
  decide

/-- C8 amended: for every `max_length`, both splitters applied to the empty
string return the single-element sequence containing the empty string, via
the single-chunk fast path `len(text) <= max_length`. -/
theorem c8_empty_singleton (m : Nat) :
    split_long_message [] m = [[]] ∧ split_twitter_thread [] m = [[]] := by
  constructor
  · rw [split_long_message, if_pos (by simp)]
  · rw [split_twitter_thread, if_pos (by simp)]

/-- C9: the text normalizer `clean_text` (collapse whitespace runs to a single
space, then strip) is idempotent: `clean_text (clean_text x) = clean_text x`
for every string `x`. -/
theorem c9_normalize_idempotent (x : Str) :
    clean_text (clean_text x) = clean_text x := by
  rw [clean_text_eq_joinSpace x, clean_text_eq_joinSpace, wsSplit_joinSpace]
  have h2 : ∀ (L : List Str), (∀ w ∈ L, w ≠ [] ∧ ∀ c ∈ w, isWs c = false) →
      (L.map wsSplit).flatten = L := by
    intro L
    induction L with
    | nil => intro _; rfl
    | cons a L ih =>
      intro hL
      have ha := hL a (by simp)
      rw [List.map_cons, List.flatten_cons, wsSplit_wsfree ha.2 ha.1,
        ih (fun w hw2 => hL w (by simp [hw2]))]
      rfl
  rw [h2 (wsSplit x) (fun w hwm => wsSplit_mem w hwm)]

/-- C4: `confirm` in the `Pending` state (a non-empty stored translation)
dispatches the stored text to both sinks, returns it, and clears the state;
`confirm` with nothing pending yields the no-pending outcome and changes no
state; after a store followed by a successful confirm, an immediately
subsequent confirm fails with the no-pending outcome. -/
theorem c4_confirm_semantics (tw : TwitterEnv) (tg : TelegramEnv) (s s2 : ConvState)
    (o t : Str) (ht : t ≠ []) (h2 : s2.pending = none) :
    confirmDispatch tw tg (storeTranslation s o t)
        = (some (dispatchBoth tw tg t), ⟨none, none⟩)
      ∧ confirmDispatch tw tg s2 = (none, s2)
      ∧ (confirmDispatch tw tg (confirmDispatch tw tg (storeTranslation s o t)).2).1 = none := by
  refine ⟨?_, ?_, ?_⟩
  · simp [confirmDispatch, storeTranslation, ht]
  · simp [confirmDispatch, h2]
  · simp [confirmDispatch, storeTranslation, ht]

/-- C4 witness: the confirm semantics at the concrete conversation state built
by storing the translation `"Hola"` of `"Hi"`. -/
theorem c4_confirm_semantics_witness :
    confirmDispatch sampleTw sampleTg (storeTranslation ⟨none, none⟩ (("Hi").data) (("Hola").data))
        = (some (dispatchBoth sampleTw sampleTg (("Hola").data)), ⟨none, none⟩)
      ∧ confirmDispatch sampleTw sampleTg ⟨none, some (("x").data)⟩ = (none, ⟨none, some (("x").data)⟩)
      ∧ (confirmDispatch sampleTw sampleTg
          (confirmDispatch sampleTw sampleTg
            (storeTranslation ⟨none, none⟩ (("Hi").data) (("Hola").data))).2).1 = none :=
  c4_confirm_semantics sampleTw sampleTg ⟨none, none⟩ ⟨none, some (("x").data)⟩
    (("Hi").data) (("Hola").data) (by decide) rfl

/-- C5: at most one pending translation per conversation; a second store
before confirm silently overwrites the first, so the state holds only the
second translation, the first is no longer confirmable, and a subsequent
confirm dispatches exactly the second text. -/
theorem c5_single_pending (tw : TwitterEnv) (tg : TelegramEnv) (s : ConvState)
    (o1 t1 o2 t2 : Str) (h2 : t2 ≠ []) (hne : t1 ≠ t2) :
    (storeTranslation (storeTranslation s o1 t1) o2 t2).pending = some t2
      ∧ (storeTranslation (storeTranslation s o1 t1) o2 t2).pending ≠ some t1
      ∧ confirmDispatch tw tg (storeTranslation (storeTranslation s o1 t1) o2 t2)
          = (some (dispatchBoth tw tg t2), ⟨none, none⟩) := by
  refine ⟨rfl, ?_, ?_⟩
  · simp [storeTranslation]
    exact fun h => hne h.symm
  · simp [confirmDispatch, storeTranslation, h2]

/-- C5 witness: two consecutive stores of `"uno"` then `"dos"`; only the
second is confirmable. -/
theorem c5_single_pending_witness :
    (storeTranslation (storeTranslation ⟨none, none⟩ (("a").data) (("uno").data))
        (("b").data) (("dos").data)).pending = some (("dos").data)
      ∧ (storeTranslation (storeTranslation ⟨none, none⟩ (("a").data) (("uno").data))
          (("b").data) (("dos").data)).pending ≠ some (("uno").data)
      ∧ confirmDispatch sampleTw sampleTg
          (storeTranslation (storeTranslation ⟨none, none⟩ (("a").data) (("uno").data))
            (("b").data) (("dos").data))
          = (some (dispatchBoth sampleTw sampleTg (("dos").data)), ⟨none, none⟩) :=
  c5_single_pending sampleTw sampleTg ⟨none, none⟩ (("a").data) (("uno").data)
    (("b").data) (("dos").data) (by decide) (by decide)

/-- C6: dispatch never raises and sink failures are isolated: for every
environment the twitter result reports success exactly when no error is
recorded, likewise for the telegram result, and each sink's result is
unchanged when the other sink's environment (including a failing one) is
replaced — both sinks are always attempted and never affect each other. -/
theorem c6_dispatch_errors_isolated (twEnv twEnv2 : TwitterEnv)
    (tgEnv tgEnv2 : TelegramEnv) (text : Str) :
    ((post_to_twitter twEnv text).success = true ↔ (post_to_twitter twEnv text).error = none)
      ∧ ((post_to_telegram tgEnv text).success = true ↔ (post_to_telegram tgEnv text).error = none)
      ∧ (dispatchBoth twEnv tgEnv text).2 = (dispatchBoth twEnv2 tgEnv text).2
      ∧ (dispatchBoth twEnv tgEnv text).1 = (dispatchBoth twEnv tgEnv2 text).1 := by
  refine ⟨?_, ?_, rfl, rfl⟩
  · rw [post_to_twitter, post_to_twitter_core]
    split
    · simp
    · split
      · simp
      · split
        · split <;> simp
        · split
          · simp
          · split
            · simp
            · split <;> simp
  · rw [post_to_telegram]
    split <;> simp

theorem twThreadLoop_ok (ci se : Bool) (f : Str → Option Str → Str) :
    ∀ (cs : List Str) (lastId : Str) (tr : List (Str × Option Str)),
      twThreadLoop ⟨ci, se, fun t r => Except.ok (f t r)⟩ cs lastId tr
        = (Except.ok (), tr ++ okChain f cs lastId)
  | [], lastId, tr => by simp [twThreadLoop, okChain]
  | c :: cs, lastId, tr => by
    show (match Except.ok (f c (some lastId)) with
      | Except.ok id =>
        twThreadLoop ⟨ci, se, fun t r => Except.ok (f t r)⟩ cs id (tr ++ [(c, some lastId)])
      | Except.error e => (Except.error e, tr ++ [(c, some lastId)]))
        = (Except.ok (), tr ++ okChain f (c :: cs) lastId)
    rw [show (match Except.ok (f c (some lastId)) with
      | Except.ok id =>
        twThreadLoop ⟨ci, se, fun t r => Except.ok (f t r)⟩ cs id (tr ++ [(c, some lastId)])
      | Except.error e => (Except.error e, tr ++ [(c, some lastId)]))
        = twThreadLoop ⟨ci, se, fun t r => Except.ok (f t r)⟩ cs (f c (some lastId))
            (tr ++ [(c, some lastId)]) from rfl]
    rw [twThreadLoop_ok ci se f cs (f c (some lastId)) (tr ++ [(c, some lastId)])]
    simp [okChain]

theorem okChain_length (f : Str → Option Str → Str) :
    ∀ (cs : List Str) (x : Str), (okChain f cs x).length = cs.length
  | [], _ => rfl
  | c :: cs, x => by
    rw [okChain]
    simp [okChain_length f cs]

theorem okChain_chain (f : Str → Option Str → Str) :
    ∀ (cs : List Str) (x : Str) (r : Option Str) (i : Nat) (p q : Str × Option Str),
      ((x, r) :: okChain f cs (f x r)).get? i = some p →
      ((x, r) :: okChain f cs (f x r)).get? (i + 1) = some q →
      cs.get? i = some q.1 ∧ q.2 = some (f p.1 p.2)
  | [], x, r, i, p, q, _, hq => by
    rw [okChain] at hq
    rcases i with _ | i <;> simp at hq
  | c :: cs, x, r, i, p, q, hp, hq => by
    rcases i with _ | i
    · rw [List.get?_cons_zero] at hp
      rw [okChain, List.get?_cons_succ, List.get?_cons_zero] at hq
      cases hp
      cases hq
      exact ⟨rfl, rfl⟩
    · rw [List.get?_cons_succ, okChain] at hp hq
      rw [List.get?_cons_succ] at hq
      have h := okChain_chain f cs c (some (f x r)) i p q hp hq
      exact ⟨h.1, h.2⟩

/-- C7: multi-chunk social dispatch is a strictly sequential reply chain.
With an always-succeeding `create_tweet` whose returned id is `f text reply`,
a text longer than 270 whose chunks are `c0 :: rest` produces exactly
`rest.length + 1` posts, the first being `c0` with the thread marker appended
and no reply target, and every later post carrying the next chunk of `rest`
with its reply target equal to the id returned for the immediately preceding
post; a text within the 270 limit is posted directly, with neither marker nor
reply target. -/
theorem c7_thread_chain (f : Str → Option Str → Str) (text c0 single : Str)
    (rest : List Str) (h1 : 270 < text.length)
    (h2 : split_twitter_thread text 270 = c0 :: rest) (h3 : single.length ≤ 270) :
    (post_to_twitter_core ⟨true, true, fun t r => Except.ok (f t r)⟩ single).2
        = [(single, none)]
      ∧ (post_to_twitter_core ⟨true, true, fun t r => Except.ok (f t r)⟩ text).2.length
        = rest.length + 1
      ∧ (post_to_twitter_core ⟨true, true, fun t r => Except.ok (f t r)⟩ text).2.get? 0
        = some (c0 ++ threadMarker, none)
      ∧ ∀ (i : Nat) (p q : Str × Option Str),
          (post_to_twitter_core ⟨true, true, fun t r => Except.ok (f t r)⟩ text).2.get? i
            = some p →
          (post_to_twitter_core ⟨true, true, fun t r => Except.ok (f t r)⟩ text).2.get? (i + 1)
            = some q →
          rest.get? i = some q.1 ∧ q.2 = some (f p.1 p.2) := by
  have htr : (post_to_twitter_core ⟨true, true, fun t r => Except.ok (f t r)⟩ text).2
      = (c0 ++ threadMarker, none) :: okChain f rest (f (c0 ++ threadMarker) none) := by
    rw [post_to_twitter_core]
    rw [if_neg (by simp), if_neg (by simp), if_neg (by omega)]
    split
    · rename_i heq
      rw [h2] at heq
      simp at heq
    · rename_i c00 rest0 heq
      rw [h2] at heq
      injection heq with he1 he2
      subst he1
      subst he2
      rw [show (TwitterEnv.mk true true (fun t r => Except.ok (f t r))).createTweet
          (c0 ++ threadMarker) none = Except.ok (f (c0 ++ threadMarker) none) from rfl]
      split
      · rename_i e heq2
        exact absurd heq2.symm (by simp)
      · rename_i id0 heq2
        injection heq2 with he3
        subst he3
        rw [twThreadLoop_ok true true f rest (f (c0 ++ threadMarker) none)
          [(c0 ++ threadMarker, none)]]
        rfl
  refine ⟨?_, ?_, ?_, ?_⟩
  · rw [post_to_twitter_core]
    rw [if_neg (by simp), if_neg (by simp), if_pos h3]
  · rw [htr]
    simp [okChain_length f rest]
  · rw [htr]
    rfl
  · intro i p q hp hq
    rw [htr] at hp hq
    exact okChain_chain f rest (c0 ++ threadMarker) none i p q hp hq

set_option maxRecDepth 8000 in
/-- C7 witness: the chain theorem at the 271-character text `"A"*271`, whose
chunks are `["A"*270, "A"]`, with ids computed by a constant id function, and
the direct-post part at the short text `"ok"`. -/
theorem c7_thread_chain_witness :
    (post_to_twitter_core ⟨true, true,
        fun t r => Except.ok ((fun _ _ => (("id1").data)) t r)⟩ (("ok").data)).2
      = [((("ok").data), none)] :=
  (c7_thread_chain (fun _ _ => (("id1").data)) (List.replicate 271 'A')
    (List.replicate 270 'A') (("ok").data) [['A']]
    (by simp) (by decide) (by decide)).1

/-- C10: if the social client is not initialized or social sharing is
disabled, `post_to_twitter` attempts no post at all and returns
success = false, tweets = 0, thread = false and a non-null error, for every
input text. -/
theorem c10_guard_no_attempt (env : TwitterEnv) (text : Str)
    (h : env.clientInit = false ∨ env.sharingEnabled = false) :
    (post_to_twitter env text).success = false
      ∧ (post_to_twitter env text).tweets = 0
      ∧ (post_to_twitter env text).thread = false
      ∧ (post_to_twitter env text).error ≠ none
      ∧ (post_to_twitter_core env text).2 = [] := by
  rcases h with h | h
  · simp [post_to_twitter, post_to_twitter_core, h]
  · cases hc : env.clientInit <;>
      simp [post_to_twitter, post_to_twitter_core, h, hc]

/-- C10 witness: the guard theorem at the uninitialized sample environment
and the text `"hi"`. -/
theorem c10_guard_no_attempt_witness :
    (post_to_twitter sampleTwOff (("hi").data)).success = false
      ∧ (post_to_twitter sampleTwOff (("hi").data)).tweets = 0
      ∧ (post_to_twitter sampleTwOff (("hi").data)).thread = false
      ∧ (post_to_twitter sampleTwOff (("hi").data)).error ≠ none
      ∧ (post_to_twitter_core sampleTwOff (("hi").data)).2 = [] :=
  c10_guard_no_attempt sampleTwOff (("hi").data) (Or.inl rfl)
